import Mathlib

/-!
Shallow embedding of the `pokecache` package and the fetch layer of
azs06/pokedexcli (Go), for checking the specification's claims.

Modelling choices:
* Byte slices (`[]byte`) become `List Nat`; `nil`/`(value, false)` results of
  `Get` become `none`, `(value, true)` becomes `some value`.
* `time.Time` and `time.Duration` become `Nat` (a monotone clock in abstract
  ticks); `time.Now()` becomes an explicit `now : Nat` argument threaded to the
  operations that read the clock.
* The Go `map[string]cacheEntry` becomes an association list with a
  unique-keys invariant (Go maps have unique keys by construction).
* The `sync.RWMutex` is dropped: the embedding is sequential, so each
  operation's critical section is an atomic step.
* The background `reapLoop` goroutine is modelled by its loop body
  (`Cache.reap`, one timer tick) together with a trace semantics in which tick
  events occur at multiples of the interval.
-/

set_option autoImplicit false

namespace Pokedex

/-- Go `cacheEntry`: stored value plus insertion timestamp. -/
structure cacheEntry where
  createdAt : Nat
  val : List Nat
deriving DecidableEq, Repr

/-- Go map lookup `m[key]` returning `(value, ok)`, on the association-list
model: first entry with the given key, if any. -/
def mapLookup {α : Type} : List (String × α) → String → Option α
  | [], _ => none
  | (k, v) :: rest, key => if k = key then some v else mapLookup rest key

/-- Go map assignment `m[key] = v`: replace the entry for `key` if present,
otherwise append a new one. -/
def mapUpdate {α : Type} : List (String × α) → String → α → List (String × α)
  | [], key, v => [(key, v)]
  | (k, w) :: rest, key, v =>
    if k = key then (key, v) :: rest else (k, w) :: mapUpdate rest key v

@[simp] theorem mapLookup_nil {α : Type} (key : String) :
    mapLookup ([] : List (String × α)) key = none := rfl

theorem mapLookup_cons {α : Type} (k key : String) (v : α) (rest : List (String × α)) :
    mapLookup ((k, v) :: rest) key = if k = key then some v else mapLookup rest key := rfl

theorem mapUpdate_nil {α : Type} (key : String) (v : α) :
    mapUpdate ([] : List (String × α)) key v = [(key, v)] := rfl

theorem mapUpdate_cons {α : Type} (k key : String) (w v : α) (rest : List (String × α)) :
    mapUpdate ((k, w) :: rest) key v =
      if k = key then (key, v) :: rest else (k, w) :: mapUpdate rest key v := rfl

theorem mapLookup_eq_none_of_not_mem {α : Type} (m : List (String × α)) (key : String)
    (h : key ∉ m.map Prod.fst) : mapLookup m key = none := by
  induction m with
  | nil => rfl
  | cons hd tl ih =>
    obtain ⟨k, v⟩ := hd
    rw [List.map_cons, List.mem_cons] at h
    push_neg at h
    rw [mapLookup_cons, if_neg (fun e => h.1 (Eq.symm e))]
    exact ih h.2

theorem mapLookup_mapUpdate_self {α : Type} (m : List (String × α)) (key : String) (v : α) :
    mapLookup (mapUpdate m key v) key = some v := by
  induction m with
  | nil => simp [mapUpdate, mapLookup]
  | cons hd tl ih =>
    obtain ⟨k, w⟩ := hd
    by_cases hk : k = key
    · simp [mapUpdate, hk, mapLookup]
    · simp [mapUpdate, hk, mapLookup, ih]

theorem mapLookup_mapUpdate_ne {α : Type} (m : List (String × α)) (key key' : String) (v : α)
    (h : key' ≠ key) : mapLookup (mapUpdate m key v) key' = mapLookup m key' := by
  induction m with
  | nil =>
    rw [mapUpdate_nil, mapLookup_cons, if_neg (fun e => h (Eq.symm e)), mapLookup_nil]
  | cons hd tl ih =>
    obtain ⟨k, w⟩ := hd
    by_cases hk : k = key
    · subst hk
      rw [mapUpdate_cons, if_pos rfl, mapLookup_cons, mapLookup_cons,
        if_neg (fun e => h (Eq.symm e)), if_neg (fun e => h (Eq.symm e))]
    · rw [mapUpdate_cons, if_neg hk, mapLookup_cons, mapLookup_cons, ih]

theorem mem_keys_mapUpdate {α : Type} (m : List (String × α)) (key a : String) (v : α)
    (h : a ∈ (mapUpdate m key v).map Prod.fst) : a = key ∨ a ∈ m.map Prod.fst := by
  induction m with
  | nil =>
    rw [mapUpdate_nil, List.map_cons, List.map_nil, List.mem_singleton] at h
    exact Or.inl h
  | cons hd tl ih =>
    obtain ⟨k, w⟩ := hd
    rw [mapUpdate_cons] at h
    by_cases hk : k = key
    · rw [if_pos hk, List.map_cons, List.mem_cons] at h
      rcases h with h | h
      · exact Or.inl h
      · exact Or.inr (by rw [List.map_cons, List.mem_cons]; exact Or.inr h)
    · rw [if_neg hk, List.map_cons, List.mem_cons] at h
      rcases h with h | h
      · exact Or.inr (by rw [List.map_cons, List.mem_cons]; exact Or.inl h)
      · rcases ih h with h' | h'
        · exact Or.inl h'
        · exact Or.inr (by rw [List.map_cons, List.mem_cons]; exact Or.inr h')

theorem nodup_keys_mapUpdate {α : Type} (m : List (String × α)) (key : String) (v : α)
    (h : (m.map Prod.fst).Nodup) : ((mapUpdate m key v).map Prod.fst).Nodup := by
  induction m with
  | nil =>
    rw [mapUpdate_nil]
    exact List.nodup_singleton key
  | cons hd tl ih =>
    obtain ⟨k, w⟩ := hd
    rw [List.map_cons, List.nodup_cons] at h
    by_cases hk : k = key
    · subst hk
      rw [mapUpdate_cons, if_pos rfl, List.map_cons]
      exact List.nodup_cons.mpr h
    · rw [mapUpdate_cons, if_neg hk, List.map_cons]
      refine List.nodup_cons.mpr ⟨?_, ih h.2⟩
      intro hmem
      rcases mem_keys_mapUpdate tl key k v hmem with h' | h'
      · exact hk h'
      · exact h.1 h'

/-- Go `Cache`: the string-keyed map of entries (the `sync.RWMutex` field is
dropped in this sequential embedding). The `nodup` field records that Go map
keys are unique. -/
structure Cache where
  cache : List (String × cacheEntry)
  nodup : (cache.map Prod.fst).Nodup

/-- Go `Add`: insert or replace the entry for `key` with the given value and
`time.Now()` (the explicit `now` argument) as `createdAt`. -/
def Cache.Add (p : Cache) (key : String) (value : List Nat) (now : Nat) : Cache :=
  { cache := mapUpdate p.cache key { createdAt := now, val := value }
    nodup := nodup_keys_mapUpdate p.cache key _ p.nodup }

/-- Go `Get`: look the key up; return `(nil, false)` (here `none`) when absent
and `(val.val, true)` (here `some val.val`) when present. The second component
is the cache state after the call (the method only reads the map). -/
def Cache.Get (p : Cache) (key : String) : Option (List Nat) × Cache :=
  match mapLookup p.cache key with
  | none => (none, p)
  | some val => (some val.val, p)

/-- Body of one timer tick of Go `reapLoop`: scan all entries and delete every
entry with `time.Since(entry.createdAt) > interval`, i.e. keep exactly the
entries with `now - createdAt ≤ interval` (`time.Since` at clock `now`). -/
def Cache.reap (p : Cache) (now interval : Nat) : Cache :=
  { cache := p.cache.filter fun kv => ! decide (now - kv.2.createdAt > interval)
    nodup := List.Nodup.sublist ((List.filter_sublist p.cache).map Prod.fst) p.nodup }

/-- Go `NewCache`: an empty cache. The spawned `reapLoop` goroutine is
represented separately by tick events in the trace semantics below; like the
Go struct, the cache itself does not store the interval. -/
def NewCache (_interval : Nat) : Cache :=
  { cache := [], nodup := List.nodup_nil }

/-- Lookup after filtering by a predicate on entries, on a duplicate-free
association list: the entry survives exactly when it satisfies the predicate. -/
theorem mapLookup_filter {α : Type} (m : List (String × α)) (p : α → Bool) (key : String)
    (hm : (m.map Prod.fst).Nodup) :
    mapLookup (m.filter fun kv => p kv.2) key =
      match mapLookup m key with
      | some e => if p e then some e else none
      | none => none := by
  induction m with
  | nil => rfl
  | cons hd tl ih =>
    obtain ⟨k, e⟩ := hd
    rw [List.map_cons, List.nodup_cons] at hm
    by_cases hk : k = key
    · subst hk
      by_cases hp : p e = true
      · simp only [List.filter_cons, hp, if_true, mapLookup_cons, if_pos rfl]
      · have hnone : mapLookup (tl.filter fun kv => p kv.2) k = none := by
          apply mapLookup_eq_none_of_not_mem
          intro hmem
          exact hm.1 (((List.filter_sublist tl).map Prod.fst).subset hmem)
        simp [List.filter_cons, hp, mapLookup_cons, hnone]
    · have hk' : ¬(k = key) := hk
      by_cases hp : p e = true
      · simp only [List.filter_cons, hp, if_true, mapLookup_cons, if_neg hk', ih hm.2]
      · simp [List.filter_cons, hp, mapLookup_cons, hk', ih hm.2]

/-- Effect of one sweep tick on a single key: the entry survives exactly when
its age `now - createdAt` does not exceed the interval, and survives unchanged. -/
theorem mapLookup_reap (c : Cache) (now interval : Nat) (key : String) :
    mapLookup (c.reap now interval).cache key =
      match mapLookup c.cache key with
      | some e => if now - e.createdAt ≤ interval then some e else none
      | none => none := by
  have h := mapLookup_filter c.cache
    (fun e => ! decide (now - e.createdAt > interval)) key c.nodup
  show mapLookup (c.cache.filter fun kv =>
    ! decide (now - kv.2.createdAt > interval)) key = _
  rw [h]
  cases mapLookup c.cache key with
  | none => rfl
  | some e => simp [Nat.not_lt]

theorem mapLookup_reap_some (c : Cache) (now interval : Nat) (key : String) (e : cacheEntry)
    (h : mapLookup (c.reap now interval).cache key = some e) :
    mapLookup c.cache key = some e := by
  rw [mapLookup_reap] at h
  cases hm : mapLookup c.cache key with
  | none =>
    rw [hm] at h
    exact Option.noConfusion h
  | some e' =>
    rw [hm] at h
    have h2 : (if now - e'.createdAt ≤ interval then some e' else none) = some e := h
    by_cases hc : now - e'.createdAt ≤ interval
    · rw [if_pos hc] at h2
      exact h2
    · rw [if_neg hc] at h2
      exact Option.noConfusion h2

/-- One event of a sequential history of the cache: an `Add` call, or one
sweep tick of the `reapLoop` goroutine, each tagged with the value of the
monotone clock (`time.Now()`) at which it runs. -/
inductive Event where
  | add (key : String) (value : List Nat) (clock : Nat)
  | tick (clock : Nat)
deriving DecidableEq, Repr

/-- Clock value at which an event runs. -/
def Event.clock : Event → Nat
  | .add _ _ t => t
  | .tick t => t

/-- Effect of one event on the cache: `add` runs Go `Add`; `tick` runs one
iteration of the `reapLoop` body with the configured interval. -/
def step (interval : Nat) (c : Cache) (e : Event) : Cache :=
  match e with
  | .add k v t => c.Add k v t
  | .tick t => c.reap t interval

/-- Sequential history: fold the events over the cache in order. -/
def run (interval : Nat) (c : Cache) (es : List Event) : Cache :=
  es.foldl (step interval) c

theorem run_nil (I : Nat) (c : Cache) : run I c [] = c := rfl

theorem run_cons (I : Nat) (c : Cache) (ev : Event) (es : List Event) :
    run I c (ev :: es) = run I (step I c ev) es := rfl

/-- A key that is absent and never added stays absent along any history:
ticks and adds of other keys never create an entry for it. -/
theorem mapLookup_run_eq_none (I : Nat) (es : List Event) (c : Cache) (k : String)
    (h0 : mapLookup c.cache k = none) (h : ∀ v t, Event.add k v t ∉ es) :
    mapLookup (run I c es).cache k = none := by
  induction es generalizing c with
  | nil => exact h0
  | cons ev tl ih =>
    rw [run_cons]
    have htl : ∀ v t, Event.add k v t ∉ tl :=
      fun v t hm => h v t (List.mem_cons_of_mem _ hm)
    cases ev with
    | add k' v t =>
      have hk : k ≠ k' := by
        intro e
        exact h v t (by rw [e]; exact List.mem_cons_self _ _)
      refine ih _ ?_ htl
      show mapLookup (c.Add k' v t).cache k = none
      rw [Cache.Add]
      show mapLookup (mapUpdate c.cache k' _) k = none
      rw [mapLookup_mapUpdate_ne _ _ _ _ hk, h0]
    | tick t =>
      refine ih _ ?_ htl
      show mapLookup (c.reap t I).cache k = none
      rw [mapLookup_reap, h0]

/-- Provenance: an entry present after a history either was already present
before it, or was written by an `add` event of that history carrying exactly
its key, value and timestamp. Entries are created or overwritten only by
`Add`. -/
theorem mapLookup_run_provenance (I : Nat) (es : List Event) (c : Cache) (k : String)
    (e : cacheEntry) (h : mapLookup (run I c es).cache k = some e) :
    mapLookup c.cache k = some e ∨ Event.add k e.val e.createdAt ∈ es := by
  induction es generalizing c with
  | nil => exact Or.inl h
  | cons ev tl ih =>
    rw [run_cons] at h
    rcases ih (step I c ev) h with hc | hm
    · cases ev with
      | add k' v t =>
        by_cases hk : k' = k
        · subst hk
          have : mapLookup (c.Add k' v t).cache k' = some ⟨t, v⟩ :=
            mapLookup_mapUpdate_self c.cache k' _
          rw [step] at hc
          rw [this] at hc
          obtain rfl : e = ⟨t, v⟩ := (Option.some_inj.mp hc).symm
          exact Or.inr (List.mem_cons_self _ _)
        · refine Or.inl ?_
          rw [step] at hc
          have : mapLookup (c.Add k' v t).cache k = mapLookup c.cache k :=
            mapLookup_mapUpdate_ne c.cache k' k _ (fun e' => hk e'.symm)
          rw [this] at hc
          exact hc
      | tick t =>
        rw [step] at hc
        exact Or.inl (mapLookup_reap_some c t I k e hc)
    · exact Or.inr (List.mem_cons_of_mem _ hm)

/-- The pair returned by `Get` in closed form: the looked-up value (if any)
and the unchanged cache. -/
theorem Get_eq (c : Cache) (key : String) :
    c.Get key = ((mapLookup c.cache key).map cacheEntry.val, c) := by
  cases h : mapLookup c.cache key with
  | none => simp [Cache.Get, h]
  | some e => simp [Cache.Get, h]

/-- Adding a key and immediately looking it up yields the added value. -/
theorem Get_Add_self (c : Cache) (k : String) (v : List Nat) (now : Nat) :
    ((c.Add k v now).Get k).1 = some v := by
  simp [Get_eq, Cache.Add, mapLookup_mapUpdate_self]

/-- Running only sweep ticks: an entry survives the whole sequence of ticks
exactly when it survives every tick, and it is never modified, only possibly
deleted (ticks do not change `createdAt` or the value). -/
theorem mapLookup_run_ticks (I : Nat) (ts : List Nat) (c : Cache) (k : String) :
    mapLookup (run I c (ts.map Event.tick)).cache k =
      match mapLookup c.cache k with
      | some e => if ts.all fun u => u - e.createdAt ≤ I then some e else none
      | none => none := by
  induction ts generalizing c with
  | nil =>
    cases h : mapLookup c.cache k <;> simp [run_nil, h]
  | cons u tl ih =>
    have hstep : step I c (Event.tick u) = c.reap u I := rfl
    rw [List.map_cons, run_cons, hstep, ih, mapLookup_reap]
    cases h : mapLookup c.cache k with
    | none => rfl
    | some e =>
      by_cases hu : u - e.createdAt ≤ I
      · have hu' : u ≤ I + e.createdAt := Nat.sub_le_iff_le_add.mp hu
        simp [hu, hu', List.all_cons]
      · have hu' : ¬u ≤ I + e.createdAt := fun hle => hu (Nat.sub_le_iff_le_add.mpr hle)
        simp [hu, hu', List.all_cons]

/-- Tick times of the sweeper goroutine started by `NewCache` with interval
`I`, restricted to the ticks that have fired by clock value `t`: the ticker
fires at the multiples `I, 2*I, ...` of the interval. -/
def schedTimes (I t : Nat) : List Nat :=
  (List.range (t / I)).map fun i => (i + 1) * I

/-- The sweep-tick events that have fired by clock value `t`. -/
def tickSchedule (I t : Nat) : List Event :=
  (schedTimes I t).map Event.tick

theorem lt_div_add_one_mul (a I : Nat) (hI : 0 < I) : a < (a / I + 1) * I :=
  calc a = a / I * I + a % I := (Nat.div_add_mod' a I).symm
    _ < a / I * I + I := Nat.add_lt_add_left (Nat.mod_lt _ hI) _
    _ = (a / I + 1) * I := by rw [Nat.add_mul, Nat.one_mul]

theorem div_add_one_mul_le (a I : Nat) : (a / I + 1) * I ≤ a + I := by
  rw [Nat.add_mul, Nat.one_mul]
  exact Nat.add_le_add_right (Nat.div_mul_le_self a I) I

/-- By clock `t ≥ T + 2*I + 1` the schedule contains a tick strictly later
than `T + I`, i.e. one at which an entry created at `T` has age `> I`. -/
theorem schedTimes_has_late_tick (I T t : Nat) (hI : 0 < I) (ht : T + 2 * I + 1 ≤ t) :
    ∃ u ∈ schedTimes I t, ¬(u - T ≤ I) := by
  refine ⟨((T + I) / I + 1) * I, ?_, ?_⟩
  · rw [schedTimes, List.mem_map]
    refine ⟨(T + I) / I, ?_, rfl⟩
    rw [List.mem_range]
    have h1 : ((T + I) / I + 1) * I ≤ t := by
      calc ((T + I) / I + 1) * I ≤ (T + I) + I := div_add_one_mul_le (T + I) I
        _ ≤ t := by omega
    exact Nat.lt_of_lt_of_le (Nat.lt_of_succ_le (le_refl _))
      ((Nat.le_div_iff_mul_le hI).mpr h1)
  · have h2 : T + I < ((T + I) / I + 1) * I := lt_div_add_one_mul (T + I) I hI
    omega

/-- C1: for every key `k` and value `v`, calling `Add k v` on any cache and
then immediately calling `Get k`, with no intervening sweep tick, returns
`(v, true)` (embedded as `some v`). -/
theorem add_then_get_returns_value (c : Cache) (k : String) (v : List Nat) (now : Nat) :
    ((c.Add k v now).Get k).1 = some v :=
  Get_Add_self c k v now

/-- C2: one sweep tick at clock `now` maps each key to its prior entry exactly
when the entry's age `now - createdAt` does not exceed the interval (kept
unchanged), and to nothing when the age strictly exceeds it (removed). -/
theorem sweep_removes_exactly_expired (c : Cache) (now interval : Nat) (key : String) :
    mapLookup (c.reap now interval).cache key =
      match mapLookup c.cache key with
      | some e => if now - e.createdAt ≤ interval then some e else none
      | none => none :=
  mapLookup_reap c now interval key

/-- C4: `Get` returns `(nil, false)` (embedded as `none`) on a fresh
`NewCache`, on any key never added along a history, and on a key whose entry a
sweep tick has just removed; absence is signalled only by that result (the
embedded `Get` is total, so it can neither error nor panic). -/
theorem get_absent_returns_not_found (I now : Nat) (k : String) (es : List Event)
    (c : Cache) (e : cacheEntry) :
    ((NewCache I).Get k).1 = none ∧
    ((∀ v t, Event.add k v t ∉ es) → ((run I (NewCache I) es).Get k).1 = none) ∧
    (mapLookup c.cache k = some e → now - e.createdAt > I →
      ((c.reap now I).Get k).1 = none) := by
  refine ⟨?_, ?_, ?_⟩
  · simp [Get_eq, NewCache]
  · intro h
    rw [Get_eq]
    rw [mapLookup_run_eq_none I es (NewCache I) k rfl h]
    rfl
  · intro hsome hage
    rw [Get_eq, mapLookup_reap, hsome]
    show Option.map cacheEntry.val (if now - e.createdAt ≤ I then some e else none) = none
    rw [if_neg (Nat.not_le.mpr hage)]
    rfl

/-- C5: re-adding a key is last-write-wins: after `Add k v` twice `Get k`
still returns `(v, true)`, and after `Add k v` then `Add k v2` it returns
`(v2, true)`. -/
theorem re_add_last_write_wins (c : Cache) (k : String) (v v2 : List Nat) (t1 t2 : Nat) :
    (((c.Add k v t1).Add k v t2).Get k).1 = some v ∧
    (((c.Add k v t1).Add k v2 t2).Get k).1 = some v2 := by
  constructor <;> simp [Get_eq, Cache.Add, mapLookup_mapUpdate_self]

/-- C6: along any history whose event clocks are non-decreasing, the
`createdAt` stored for a key is monotonically non-decreasing: every `Add`
stamps the current clock, which is never earlier than the stamp it replaces,
and no other operation changes `createdAt`. -/
theorem createdAt_monotone (I : Nat) (es1 es2 : List Event) (k : String)
    (e e' : cacheEntry)
    (hmono : ∀ ev ∈ es1, ∀ ev' ∈ es2, ev.clock ≤ ev'.clock)
    (h1 : mapLookup (run I (NewCache I) es1).cache k = some e)
    (h2 : mapLookup (run I (NewCache I) (es1 ++ es2)).cache k = some e') :
    e.createdAt ≤ e'.createdAt := by
  have hsplit : run I (NewCache I) (es1 ++ es2) = run I (run I (NewCache I) es1) es2 :=
    List.foldl_append _ _ _ _
  rw [hsplit] at h2
  rcases mapLookup_run_provenance I es2 _ k e' h2 with hc | hm2
  · rw [h1] at hc
    rw [Option.some_inj.mp hc]
  · rcases mapLookup_run_provenance I es1 _ k e h1 with hc1 | hm1
    · exact Option.noConfusion hc1
    · have := hmono _ hm1 _ hm2
      simpa [Event.clock] using this

/-- C7: frame conditions: `Get` leaves the cache unchanged; `Add` on key `k`
leaves every entry with key `k' ≠ k` unchanged; a sweep tick only removes
entries (every surviving entry was present before, unchanged); and an entry is
created or overwritten only by an `Add` event carrying its key, value and
timestamp. -/
theorem frame_conditions (c : Cache) (k k' : String) (v : List Nat)
    (now I : Nat) (e : cacheEntry) (es : List Event) (hne : k' ≠ k) :
    (c.Get k).2 = c ∧
    mapLookup (c.Add k v now).cache k' = mapLookup c.cache k' ∧
    (mapLookup (c.reap now I).cache k' = some e → mapLookup c.cache k' = some e) ∧
    (mapLookup (run I c es).cache k' = some e →
      mapLookup c.cache k' = some e ∨ Event.add k' e.val e.createdAt ∈ es) := by
  refine ⟨?_, ?_, ?_, ?_⟩
  · rw [Get_eq]
  · exact mapLookup_mapUpdate_ne c.cache k k' _ hne
  · exact mapLookup_reap_some c now I k' e
  · exact mapLookup_run_provenance I es c k' e

/-- C3: with sweep ticks at the multiples of the interval `I` (the ticker
started by `NewCache`), an entry added at clock `T` is still returned by `Get`
after any ticks at clocks `≤ T + I` (that is, at any moment before the first
tick later than `T + I`), but once the clock reaches any `t ≥ T + 2*I + 1` and
the tick schedule up to `t` has run, the entry is absent: a stale entry
survives at most one sweep interval past its nominal expiry. -/
theorem stale_entry_bounded (I T t : Nat) (k : String) (v : List Nat) (ts : List Nat)
    (hI : 0 < I) (hts : ∀ u ∈ ts, u ≤ T + I) (ht : T + 2 * I + 1 ≤ t) :
    ((run I ((NewCache I).Add k v T) (ts.map Event.tick)).Get k).1 = some v ∧
    ((run I ((NewCache I).Add k v T) (tickSchedule I t)).Get k).1 = none := by
  have hc0 : mapLookup ((NewCache I).Add k v T).cache k = some ⟨T, v⟩ :=
    mapLookup_mapUpdate_self _ k _
  constructor
  · rw [Get_eq, mapLookup_run_ticks, hc0]
    have hall : ∀ u ∈ ts, u ≤ I + T := fun u hu => by
      have := hts u hu
      omega
    simpa using hall
  · have hsched : tickSchedule I t = (schedTimes I t).map Event.tick := rfl
    rw [Get_eq, hsched, mapLookup_run_ticks, hc0]
    obtain ⟨u, hmem, hgt⟩ := schedTimes_has_late_tick I T t hI ht
    have hnall : ¬∀ x ∈ schedTimes I t, x ≤ I + T := by
      intro hf
      exact hgt (by have := hf u hmem; omega)
    simp [hnall]

/-- Go error values produced by `fetchData`; the strings of `errors.New` and
`fmt.Errorf` are abstracted into constructors, and `readFailed` carries the
`io.ReadAll` error. -/
inductive FetchError where
  | invalidInput
  | httpGetFailed (msg : String)
  | badStatus (status : Nat)
  | readFailed (msg : String)
deriving DecidableEq, Repr

/-- Result of `io.ReadAll(res.Body)`: the bytes read (on failure, the partial
bytes read so far, per the `io.ReadAll` contract) and the optional error. -/
structure BodyRead where
  bytes : List Nat
  readErr : Option String
deriving DecidableEq, Repr

/-- Outcome of `http.Get(url)`: a transport error, or a response carrying a
status code and a body to read. -/
inductive HttpResult where
  | failure (msg : String)
  | success (statusCode : Nat) (body : BodyRead)
deriving DecidableEq, Repr

/-- Go `strings.TrimSpace`, modelled structurally on the character list:
drop leading and trailing whitespace. -/
def trimSpace (s : String) : String :=
  ⟨((s.data.dropWhile Char.isWhitespace).reverse.dropWhile Char.isWhitespace).reverse⟩

/-- Go `config`: the REPL state threaded through every command. -/
structure config where
  Url : String
  Next : String
  Previous : String
  Cache : Cache

/-- Go `fetchData`: serve from the cache when possible; otherwise perform the
HTTP fetch (the network is the oracle `world`), reject non-200 statuses, and
read the body. As in the source, the bytes returned by `io.ReadAll` are added
to the cache before the read error is checked. `now` is the clock value the
`Add` stamps. -/
def fetchData (url : String) (c : config) (world : String → HttpResult) (now : Nat) :
    Except FetchError (List Nat) × config :=
  if trimSpace url = "" then (.error .invalidInput, c)
  else
    match (c.Cache.Get url).1 with
    | some decodedData => (.ok decodedData, c)
    | none =>
      match world url with
      | .failure msg => (.error (.httpGetFailed msg), c)
      | .success statusCode body =>
        if statusCode ≠ 200 then (.error (.badStatus statusCode), c)
        else
          let c2 := { c with Cache := c.Cache.Add url body.bytes now }
          match body.readErr with
          | some msg => (.error (.readFailed msg), c2)
          | none => (.ok body.bytes, c2)

/-- Go `PokemonType` (the JSON-decoded pokemon). The nested `Stats` and
`Types` slices are flattened to (name, number) pairs; `catchPokemon` reads
only `BaseExperience`. -/
structure PokemonType where
  Name : String
  Height : Int
  Weight : Int
  Stats : List (String × Int)
  Types : List (Int × String)
  BaseExperience : Int
deriving DecidableEq, Repr

/-- Modelled from the documented contract of `math/rand/v2`: `IntN(n)`
returns a pseudo-random value in `[0, n)` and panics when `n ≤ 0` (with the
message below). The draw itself is supplied by the oracle `draw`; the
`.error` result models the panic. -/
def randIntN (n : Int) (draw : Int) : Except String Int :=
  if n ≤ 0 then .error "invalid argument to IntN" else .ok draw

/-- How a `catchPokemon` call ends: an error propagated from the fetch or the
JSON decode, a runtime panic, or a normal catch/escape result. -/
inductive CatchOutcome where
  | fetchFailed (e : FetchError)
  | decodeFailed (msg : String)
  | panicked (msg : String)
  | caught
  | escaped
deriving DecidableEq, Repr

/-- Go `catchPokemon`: fetch the pokemon by URL, JSON-decode it (the oracle
`decode` stands for `json.Unmarshal`), draw `rand.IntN(baseExperience)` —
which panics when `baseExperience ≤ 0` — and on a successful catch record the
pokemon in the pokedex map. Returns the outcome with the updated config and
pokedex. -/
def catchPokemon (p : String) (c : config) (world : String → HttpResult)
    (decode : List Nat → Except String PokemonType) (draw : Int) (now : Nat)
    (pokeDex : List (String × PokemonType)) :
    CatchOutcome × config × List (String × PokemonType) :=
  let url := c.Url ++ "pokemon/" ++ p
  match fetchData url c world now with
  | (.error e, c2) => (.fetchFailed e, c2, pokeDex)
  | (.ok decodedData, c2) =>
    match decode decodedData with
    | .error msg => (.decodeFailed msg, c2, pokeDex)
    | .ok response =>
      let baseExperience := response.BaseExperience
      match randIntN baseExperience draw with
      | .error msg => (.panicked msg, c2, pokeDex)
      | .ok chance =>
        let willGotCaught := baseExperience - chance
        if willGotCaught > baseExperience / 2
        then (.caught, c2, mapUpdate pokeDex p response)
        else (.escaped, c2, pokeDex)

/-- C9: `fetchData` is not atomic on a body-read error: on a cache miss with a
200 response whose body read fails, it adds the partial bytes to the cache
under the URL before checking the read error, so it returns the read error to
the caller with the cache already mutated, and a second `fetchData` of the
same URL returns those bytes as a cache hit with no error. -/
theorem fetchData_caches_partial_bytes_on_read_error
    (url : String) (c : config) (world : String → HttpResult) (now now2 : Nat)
    (bs : List Nat) (msg : String)
    (hurl : ¬trimSpace url = "")
    (hmiss : (c.Cache.Get url).1 = none)
    (hworld : world url = .success 200 ⟨bs, some msg⟩) :
    (fetchData url c world now).1 = .error (.readFailed msg) ∧
    ((fetchData url c world now).2.Cache.Get url).1 = some bs ∧
    fetchData url (fetchData url c world now).2 world now2 =
      (.ok bs, (fetchData url c world now).2) := by
  have hrun : fetchData url c world now =
      (.error (.readFailed msg), { c with Cache := c.Cache.Add url bs now }) := by
    rw [fetchData, if_neg hurl, hmiss, hworld]
    simp
  have hhit : (({ c with Cache := c.Cache.Add url bs now } : config).Cache.Get url).1 =
      some bs := Get_Add_self c.Cache url bs now
  refine ⟨by rw [hrun], by rw [hrun]; exact hhit, ?_⟩
  rw [hrun]
  rw [fetchData, if_neg hurl]
  rw [hhit]

/-- C10: given a successful fetch and a successful JSON decode,
`catchPokemon` panics — `rand.IntN` requires a strictly positive argument —
exactly when the decoded `BaseExperience` is zero (e.g. absent from the JSON)
or negative, and it terminates normally (caught or escaped) exactly when
`BaseExperience` is positive. -/
theorem catchPokemon_panics_iff_nonpositive_base_exp
    (p : String) (c : config) (world : String → HttpResult)
    (decode : List Nat → Except String PokemonType) (draw : Int) (now : Nat)
    (dex : List (String × PokemonType)) (data : List Nat) (c2 : config)
    (response : PokemonType)
    (hfetch : fetchData (c.Url ++ "pokemon/" ++ p) c world now = (.ok data, c2))
    (hdecode : decode data = .ok response) :
    (response.BaseExperience ≤ 0 →
      (catchPokemon p c world decode draw now dex).1 =
        .panicked "invalid argument to IntN") ∧
    (0 < response.BaseExperience →
      (catchPokemon p c world decode draw now dex).1 = .caught ∨
      (catchPokemon p c world decode draw now dex).1 = .escaped) := by
  constructor
  · intro hle
    simp only [catchPokemon, hfetch, hdecode, randIntN]
    rw [if_pos hle]
  · intro hpos
    simp only [catchPokemon, hfetch, hdecode, randIntN]
    rw [if_neg (Int.not_le.mpr hpos)]
    by_cases hc : response.BaseExperience - draw > response.BaseExperience / 2
    · exact Or.inl (by simp [hc])
    · exact Or.inr (by simp [hc])

/-- Witness for C3 at interval 2: an entry added at clock 3 survives ticks at
clocks 2 and 4 and is gone once the schedule up to clock 8 has run. -/
theorem stale_entry_bounded_witness :
    ((run 2 ((NewCache 2).Add "k" [1] 3) ([2, 4].map Event.tick)).Get "k").1 = some [1] ∧
    ((run 2 ((NewCache 2).Add "k" [1] 3) (tickSchedule 2 8)).Get "k").1 = none :=
  stale_entry_bounded 2 3 8 "k" [1] [2, 4] (by decide) (by decide) (by decide)

/-- Witness for C4: a fresh cache misses, a key never added stays absent
through a tick and an add of another key, and a swept key misses. -/
theorem get_absent_returns_not_found_witness :
    ((NewCache 5).Get "k").1 = none ∧
    ((run 5 (NewCache 5) [Event.tick 3, Event.add "j" [1] 4]).Get "k").1 = none ∧
    ((((NewCache 5).Add "k" [1] 0).reap 9 5).Get "k").1 = none :=
  ⟨(get_absent_returns_not_found 5 9 "k" [Event.tick 3, Event.add "j" [1] 4]
      ((NewCache 5).Add "k" [1] 0) ⟨0, [1]⟩).1,
   (get_absent_returns_not_found 5 9 "k" [Event.tick 3, Event.add "j" [1] 4]
      ((NewCache 5).Add "k" [1] 0) ⟨0, [1]⟩).2.1 (by intro v t h; simp at h),
   (get_absent_returns_not_found 5 9 "k" [Event.tick 3, Event.add "j" [1] 4]
      ((NewCache 5).Add "k" [1] 0) ⟨0, [1]⟩).2.2 (by decide) (by decide)⟩

/-- Witness for C6: the stamp 3 written by an earlier add is at most the
stamp 5 written by a later re-add of the same key. -/
theorem createdAt_monotone_witness :
    (⟨3, [1]⟩ : cacheEntry).createdAt ≤ (⟨5, [2]⟩ : cacheEntry).createdAt :=
  createdAt_monotone 10 [Event.add "k" [1] 3] [Event.add "k" [2] 5] "k" ⟨3, [1]⟩ ⟨5, [2]⟩
    (by decide) (by decide) (by decide)

/-- Witness for C7 (the `Add` frame conjunct): adding key "k" leaves the
entry of the distinct key "a" unchanged. -/
theorem frame_conditions_witness :
    mapLookup (((NewCache 7).Add "a" [1] 2).Add "k" [5] 3).cache "a" =
      mapLookup ((NewCache 7).Add "a" [1] 2).cache "a" :=
  (frame_conditions ((NewCache 7).Add "a" [1] 2) "k" "a" [5] 3 7 ⟨2, [1]⟩
    [Event.tick 3] (by decide)).2.1

/-- Witness for C9 on a concrete URL and world: the first fetch reports the
read error yet caches the partial bytes `[7, 8]`, and the second fetch
returns them with no error. -/
theorem fetchData_caches_partial_bytes_witness :
    (fetchData "u" ⟨"https://pokeapi.co/api/v2/", "", "", NewCache 5⟩
        (fun _ => .success 200 ⟨[7, 8], some "read failed"⟩) 1).1 =
      .error (.readFailed "read failed") ∧
    ((fetchData "u" ⟨"https://pokeapi.co/api/v2/", "", "", NewCache 5⟩
        (fun _ => .success 200 ⟨[7, 8], some "read failed"⟩) 1).2.Cache.Get "u").1 =
      some [7, 8] ∧
    fetchData "u"
        (fetchData "u" ⟨"https://pokeapi.co/api/v2/", "", "", NewCache 5⟩
          (fun _ => .success 200 ⟨[7, 8], some "read failed"⟩) 1).2
        (fun _ => .success 200 ⟨[7, 8], some "read failed"⟩) 2 =
      (.ok [7, 8],
        (fetchData "u" ⟨"https://pokeapi.co/api/v2/", "", "", NewCache 5⟩
          (fun _ => .success 200 ⟨[7, 8], some "read failed"⟩) 1).2) :=
  fetchData_caches_partial_bytes_on_read_error "u"
    ⟨"https://pokeapi.co/api/v2/", "", "", NewCache 5⟩
    (fun _ => .success 200 ⟨[7, 8], some "read failed"⟩) 1 2 [7, 8] "read failed"
    (by decide) (by decide) rfl

/-- Witness for C10: a pokemon decoded with `BaseExperience = 0` makes
`catchPokemon` panic with the `rand.IntN` message. -/
theorem catchPokemon_panics_witness :
    (catchPokemon "pidgey" ⟨"https://pokeapi.co/api/v2/", "", "", NewCache 5⟩
        (fun _ => .success 200 ⟨[1], none⟩)
        (fun _ => .ok ⟨"pidgey", 3, 18, [], [], 0⟩) 0 1 []).1 =
      .panicked "invalid argument to IntN" :=
  (catchPokemon_panics_iff_nonpositive_base_exp "pidgey"
    ⟨"https://pokeapi.co/api/v2/", "", "", NewCache 5⟩
    (fun _ => .success 200 ⟨[1], none⟩)
    (fun _ => .ok ⟨"pidgey", 3, 18, [], [], 0⟩) 0 1 [] [1]
    ⟨"https://pokeapi.co/api/v2/", "", "",
      (NewCache 5).Add ("https://pokeapi.co/api/v2/" ++ "pokemon/" ++ "pidgey") [1] 1⟩
    ⟨"pidgey", 3, 18, [], [], 0⟩ rfl rfl).1 (by decide)

end Pokedex
